import Mathlib

/-!
Verification of the netage ReSpec profile plugins against their source.

The development shallowly embeds the plugin code of the repository:

* the defaults merger (`netage/defaults`, file `src/netage/linter.js`,
  `run`): JavaScript objects are modelled as association lists of
  string-keyed values (`JVal`), where a later binding shadows an earlier
  one, matching the semantics of object spread and `Object.assign`;
* the style plugins (`w3c/style`, file `src/netage/style.js`, and
  `netage/style`, the unnamed source `part_000`): configuration, the
  list of children of `document.head`, and the pub/sub subscriptions
  are explicit state;
* the informative-section annotator (`netage/informative`,
  `src/netage/informative.js`): the DOM is a tree (`NodeT`/`Forest`);
  DOM node identity is modelled by an optional numeric id carried by
  every element node, unique in well-formed documents;
* the build CLI (unnamed source `part_001`): the file system, module
  resolution and the bundler are an environment parameter, and the
  exit behaviour is a function of the parse and build outcomes.
-/

/-- A JavaScript value as used by the configuration objects: booleans,
numbers, strings, arrays and plain objects.  Objects are association
lists; a later binding wins, which models object spread. -/
inductive JVal where
  | jBool (b : Bool) : JVal
  | jNum (n : Int) : JVal
  | jStr (s : String) : JVal
  | jArr (elems : List JVal) : JVal
  | jObj (fields : List (String × JVal)) : JVal

/-- An object is an association list of fields.  Duplicate keys are
allowed; lookup takes the latest binding, so list append is exactly
object spread `{...a, ...b}`. -/
abbrev JObj := List (String × JVal)

/-- Property lookup: the value of the LAST binding of the key, or
`none` when the key is absent, matching JavaScript property access on
our spread-as-append representation. -/
def getF : JObj → String → Option JVal
  | [], _ => none
  | (k', v) :: rest, k =>
    match getF rest k with
    | some v' => some v'
    | none => if k' = k then some v else none

/-- Own enumerable properties contributed by spreading a value into an
object literal: an object contributes its fields, a string or an array
contributes index-keyed entries, and any other value (or an absent
one, i.e. `undefined`) contributes nothing. -/
def spreadOf : Option JVal → JObj
  | some (.jObj fields) => fields
  | some (.jStr s) => s.data.enum.map (fun p => (toString p.1, .jStr (String.mk [p.2])))
  | some (.jArr elems) => elems.enum.map (fun p => (toString p.1, p.2))
  | _ => []

/-- The profile defaults object `netageDefaults` of `src/netage/linter.js`
(lines 23-41), field for field. -/
def netageDefaultsL : JObj :=
  [("lint", .jObj [("privsec-section", .jBool true)]),
   ("pluralize", .jBool true),
   ("doJsonLd", .jBool false),
   ("license", .jStr "w3c-software-doc"),
   ("logos", .jArr [.jObj
     [("src", .jStr "https://docs.netage.nl/respec_resources/logo.png"),
      ("alt", .jStr "Netage"),
      ("height", .jNum 160),
      ("width", .jNum 258),
      ("url", .jStr "https://www.netage.nl/")]]),
   ("xref", .jBool true),
   ("prependW3C", .jBool false)]

/-- The effective `lint` value computed by the merger (linter.js lines
46-53): `false` exactly when the user set `lint` strictly equal to
`false`, otherwise the spread-union of the core defaults lint, the
profile defaults lint and the user lint. -/
def lintValue (coreDefaults : JObj) (conf : JObj) : JVal :=
  match getF conf "lint" with
  | some (.jBool false) => .jBool false
  | _ => .jObj (spreadOf (getF coreDefaults "lint") ++
                spreadOf (getF netageDefaultsL "lint") ++
                spreadOf (getF conf "lint"))

/-- The two `Object.assign` calls of linter.js lines 54-64:
`Object.assign(conf, {...coreDefaults, ...netageDefaults, ...conf, lint})`
followed by `Object.assign(conf, { definitionMap })`.  `coreDefaults`
(from the external `core/defaults`) and `definitionMap` (from the
external `core/dfn-map`) are parameters of the embedding. -/
def defaultsMerge (coreDefaults : JObj) (definitionMap : JVal) (conf : JObj) : JObj :=
  (conf ++ (coreDefaults ++ netageDefaultsL ++ conf ++
    [("lint", lintValue coreDefaults conf)])) ++
  [("definitionMap", definitionMap)]

/-- `run(conf)` of the defaults merger (linter.js lines 43-65): return
the configuration unchanged when `conf.specStatus === "unofficial"`,
otherwise apply the defaults merge. -/
def defaultsRun (coreDefaults : JObj) (definitionMap : JVal) (conf : JObj) : JObj :=
  match getF conf "specStatus" with
  | some (.jStr "unofficial") => conf
  | _ => defaultsMerge coreDefaults definitionMap conf

/-! ## Style plugins -/

/-- JavaScript `toUpperCase` restricted to the ASCII range, which is all
the status codes use. -/
def toUpperJS (s : String) : String := String.mk (s.data.map Char.toUpper)

/-- The configuration fields the style plugins read: `specStatus`
(absent, empty or a string) and the truthiness of `noToc`. -/
structure StyleConf where
  specStatus : Option String
  noToc : Bool
  deriving DecidableEq

/-- JavaScript falsiness of the `specStatus` field: absent (undefined)
or the empty string. -/
def isFalsyStatus : Option String → Bool
  | none => true
  | some s => s == ""

/-- The stylesheet chosen by the `switch` of `src/netage/style.js`
(lines 126-141), applied to the already uppercased status. -/
def w3cStyleFileFor (status : String) : String :=
  match toUpperJS status with
  | "NETAGE-CV" => "https://netage.github.io/respec_resources/styles/NETAGE-CV.css"
  | "NETAGE-LD" => "https://netage.github.io/respec_resources/styles/NETAGE-LD.css"
  | "NETAGE-FINAL" => "https://netage.github.io/respec_resources/styles/NETAGE-FINAL.css"
  | "NETAGE-BASIC" => "https://netage.github.io/respec_resources/styles/NETAGE-BASIC.css"
  | _ => "https://netage.github.io/respec_resources/styles/NETAGE-BASIC.css"

/-- The stylesheet chosen by the `switch` of the `netage/style` module
(unnamed source `part_000`, lines 78-93). -/
def netageStyleFileFor (status : String) : String :=
  match toUpperJS status with
  | "NETAGE-CV" => "https://docs.netage.nl/respec_resources/styles/NETAGE-CV.css"
  | "NETAGE-LD" => "https://docs.netage.nl/respec_resources/styles/NETAGE-LD.css"
  | "NETAGE-FINAL" => "https://docs.netage.nl/respec_resources/styles/NETAGE-FINAL.css"
  | "NETAGE-BASIC" => "https://docs.netage.nl/respec_resources/styles/NETAGE-BASIC.css"
  | _ => "https://docs.netage.nl/respec_resources/styles/NETAGE-BASIC.css"

/-- An element of the document head, as far as the style plugins are
concerned: the viewport meta tag, a stylesheet link, a resource hint,
or any other element appended by other plugins. -/
inductive HeadEl where
  | metaViewport : HeadEl
  | styleLink (href : String) (removeOnSave : Bool) : HeadEl
  | resHint (kind : String) (href : String) : HeadEl
  | otherEl (tag : String) : HeadEl
  deriving DecidableEq

/-- Recogniser for `meta[name=viewport]`. -/
def isMetaVp : HeadEl → Bool
  | .metaViewport => true
  | _ => false

/-- Recogniser for `link[href=...]` with the given href. -/
def isLinkHref (href : String) : HeadEl → Bool
  | .styleLink h _ => h == href
  | _ => false

/-- The handlers the style plugins can register on the pub/sub hub:
the fixup-script attachment for `end-all`, and the stylesheet mover
(`styleMover(linkURL)` of style.js lines 109-114) for the export
event. -/
inductive Handler where
  | fixupScript (version : String) : Handler
  | styleMoverH (href : String) : Handler
  deriving DecidableEq

/-- Shared document state of the style plugins: the children of
`document.head` in order, and the subscriber lists of the two
lifecycle events used. -/
structure DocState where
  headE : List HeadEl
  beforesaveSubs : List Handler
  endAllSubs : List Handler
  deriving DecidableEq

/-- `styleMover(linkURL)` (style.js lines 109-114): find the head link
with the given href and append it as the last child of head.  When no
such link exists, `querySelector` yields null and `append(null)`
appends a text node. -/
def styleMoverApply (href : String) (head : List HeadEl) : List HeadEl :=
  match head.find? (isLinkHref href) with
  | some l => head.eraseP (isLinkHref href) ++ [l]
  | none => head ++ [.otherEl "#text-null"]

/-- Effect of one registered handler on the head children.  The fixup
script is appended to the body, so the head is untouched. -/
def applyHandler (head : List HeadEl) : Handler → List HeadEl
  | .fixupScript _ => head
  | .styleMoverH href => styleMoverApply href head

/-- Publishing the export/save lifecycle event: every handler currently
subscribed to it runs, in subscription order. -/
def fireBeforesave (d : DocState) : DocState :=
  { d with headE := d.beforesaveSubs.foldl applyHandler d.headE }

/-- The module-load elements of `src/netage/style.js` lines 68-101: the
four resource hints followed by the base stylesheet link. -/
def w3cModuleElements : List HeadEl :=
  [.resHint "preconnect" "https://www.netage.nl",
   .resHint "preload" "https://www.w3.org/scripts/TR/2016/fixup.js",
   .resHint "preload" "https://www.w3.org/StyleSheets/TR/2016/base.css",
   .resHint "preload" "https://cloudbox.netage.nl/f/53b55b7650994d1f8528/?dl=1",
   .styleLink "https://www.w3.org/StyleSheets/TR/2016/base.css" true]

/-- Module-load side effect of `src/netage/style.js` lines 98-107: build
the fragment of hints plus base style, prepend the viewport meta to the
fragment when the head has none, then prepend the fragment to head. -/
def w3cModuleLoad (head : List HeadEl) : List HeadEl :=
  (if head.any isMetaVp then w3cModuleElements
   else .metaViewport :: w3cModuleElements) ++ head

/-- Result of a style plugin `run(conf)`: the configuration after its
mutation, the warning events published, the style file chosen, the
document state after the run, and the exception raised, if any. -/
structure StyleRunOut where
  conf : StyleConf
  warns : List String
  styleFile : String
  doc : DocState
  error : Option String
  deriving DecidableEq

/-- The warning text of style.js line 118 (punctuation of the literal
simplified). -/
def w3cWarnMsg : String :=
  "respecConfig.specStatus missing. Defaulting to NETAGE-BASIC."

/-- The warning text of part_000 line 70 (punctuation simplified). -/
def netageWarnMsg : String :=
  "respecConfig.specStatus missing. Defaulting to base."

/-- `run(conf)` of `src/netage/style.js` (lines 116-154): default a
falsy `specStatus` to "NETAGE-BASIC" with one warning, choose the
style file, subscribe the fixup-script handler to `end-all` unless
`noToc`, and link the stylesheet.  `linkCSS` is modelled from the
spec: it appends a stylesheet link for the URL to the document head.
Note that `styleMover` is never subscribed to any event by this file,
so no export handler is registered. -/
def w3cStyleRun (c : StyleConf) (d : DocState) : StyleRunOut :=
  let missing := isFalsyStatus c.specStatus
  let c1 := if missing then { c with specStatus := some "NETAGE-BASIC" } else c
  let warns := if missing then [w3cWarnMsg] else []
  let styleFile := w3cStyleFileFor ((c1.specStatus).getD "")
  let d1 := if c1.noToc then d
            else { d with endAllSubs := d.endAllSubs ++ [.fixupScript "2016"] }
  let d2 := { d1 with headE := d1.headE ++ [.styleLink styleFile false] }
  { conf := c1, warns := warns, styleFile := styleFile, doc := d2, error := none }

/-- `run(conf)` of the `netage/style` module (part_000 lines 68-100):
default a falsy `specStatus` to "base" with one warning, choose the
style file, link the stylesheet, and then evaluate
`sub("beforesave", moveStyle)`.  The identifier `moveStyle` is not
defined anywhere in that module and is not imported, so this last
statement raises a ReferenceError on every invocation; consequently no
export handler is ever registered. -/
def netageStyleRun (c : StyleConf) (d : DocState) : StyleRunOut :=
  let missing := isFalsyStatus c.specStatus
  let c1 := if missing then { c with specStatus := some "base" } else c
  let warns := if missing then [netageWarnMsg] else []
  let styleFile := netageStyleFileFor ((c1.specStatus).getD "")
  let d1 := { d with headE := d.headE ++ [.styleLink styleFile false] }
  { conf := c1, warns := warns, styleFile := styleFile, doc := d1,
    error := some "ReferenceError: moveStyle is not defined" }

/-! ## Informative-section annotator -/

mutual
/-- A DOM node: an element with an optional identity tag (modelling DOM
node identity; unique in well-formed documents), a tag name, its class
list and its children, or a text node. -/
inductive NodeT where
  | el (nid : Option Nat) (tag : String) (classes : List String) (children : Forest) : NodeT
  | txt (s : String) : NodeT
  deriving DecidableEq
/-- A list of sibling DOM nodes. -/
inductive Forest where
  | nil : Forest
  | cons (n : NodeT) (f : Forest) : Forest
  deriving DecidableEq
end

/-- The children of a node, as a forest. -/
def childrenF : NodeT → Forest
  | .el _ _ _ ch => ch
  | .txt _ => .nil

/-- The identity of a node, when it is an element carrying one. -/
def nidOf : NodeT → Option Nat
  | .el i _ _ _ => i
  | .txt _ => none

/-- Document-order (preorder) traversal of a forest, as returned by
`querySelectorAll`. -/
def preF : Forest → List NodeT
  | .nil => []
  | .cons (.txt s) f => .txt s :: preF f
  | .cons (.el i t c ch) f => .el i t c ch :: (preF ch ++ preF f)

/-- All element identities in a forest, in document order. -/
def idsF : Forest → List Nat
  | .nil => []
  | .cons (.txt _) f => idsF f
  | .cons (.el i _ _ ch) f =>
      (match i with | some k => [k] | none => []) ++ idsF ch ++ idsF f

/-- Matches the selector `section.informative` of informative.js: a
`section` element whose class list contains `informative`. -/
def isMarkedB : NodeT → Bool
  | .el _ t cls _ => t == "section" && cls.contains "informative"
  | .txt _ => false

/-- A heading tag at levels 2 through 6, matching the selector list
`"h2, h3, h4, h5, h6"`. -/
def isHeadingTag (t : String) : Bool :=
  t == "h2" || t == "h3" || t == "h4" || t == "h5" || t == "h6"

/-- Whether a node is a heading element at levels 2 through 6. -/
def isHeadingNode : NodeT → Bool
  | .el _ t _ _ => isHeadingTag t
  | .txt _ => false

/-- `element.querySelector("h2, h3, h4, h5, h6")`: the first descendant
in document order whose tag is a heading at levels 2 through 6. -/
def firstHeadF : Forest → Option NodeT
  | .nil => none
  | .cons (.txt _) f => firstHeadF f
  | .cons (.el i t c ch) f =>
      if isHeadingTag t then some (.el i t c ch)
      else
        match firstHeadF ch with
        | some n => some n
        | none => firstHeadF f

/-- The first node of a forest. -/
def headNodeF : Forest → Option NodeT
  | .nil => none
  | .cons n _ => some n

/-- The literal annotation fragment of informative.js line 76:
`<p><em>This section is non-normative.</em></p>`.  Inserted nodes carry
no identity, which distinguishes them from pre-existing markup. -/
def annotN : NodeT :=
  .el none "p" [] (.cons
    (.el none "em" [] (.cons (.txt "This section is non-normative.") .nil)) .nil)

/-- Whether a node is (equal to) the inserted annotation fragment. -/
def isAnnB (n : NodeT) : Bool := n = annotN

/-- `heading.after(fragment)`: insert the node `a` immediately after
the node whose identity is `h`.  Identities are unique in well-formed
documents, so inserting after every occurrence of `h` is insertion
after the one node carrying that identity. -/
def insAF (h : Nat) (a : NodeT) : Forest → Forest
  | .nil => .nil
  | .cons (.txt s) f => .cons (.txt s) (insAF h a f)
  | .cons (.el i t c ch) f =>
      if i = some h then .cons (.el i t c (insAF h a ch)) (.cons a (insAF h a f))
      else .cons (.el i t c (insAF h a ch)) (insAF h a f)

/-- The ids, in document order, of the elements `run()` will insert
after: for each `section.informative` in document order, the identity
of its first heading descendant at levels 2 through 6, sections
without such a heading being dropped (the `.filter(heading => heading)`
of informative.js line 74). -/
def collectTargetsF (doc : Forest) : List Nat :=
  ((preF doc).filter isMarkedB).filterMap
    (fun n => (firstHeadF (childrenF n)).bind nidOf)

/-- A fold inserting the annotation after each target in turn. -/
def applyAllF (l : List Nat) (doc : Forest) : Forest :=
  l.foldl (fun d h => insAF h annotN d) doc

/-- `run()` of `src/netage/informative.js` (lines 6-13): select the
informative sections and their headings on the document as it is, then
perform every insertion. -/
def informativeRun (doc : Forest) : Forest :=
  applyAllF (collectTargetsF doc) doc

/-- The number of annotation fragments in a forest. -/
def countAnnF : Forest → Nat
  | .nil => 0
  | .cons (.txt _) f => countAnnF f
  | .cons (.el i t c ch) f =>
      (if isAnnB (.el i t c ch) then 1 else 0) + countAnnF ch + countAnnF f

/-- Every element of the forest carries an identity (the modelling of
DOM node identity for pre-existing markup). -/
def allIdsF : Forest → Bool
  | .nil => true
  | .cons (.txt _) f => allIdsF f
  | .cons (.el i _ _ ch) f => i.isSome && allIdsF ch && allIdsF f

/-- A mid-run tidiness invariant: every element either carries an
identity, or is exactly an inserted annotation fragment. -/
def tidyF : Forest → Bool
  | .nil => true
  | .cons (.txt _) f => tidyF f
  | .cons (.el (some _) _ _ ch) f => tidyF ch && tidyF f
  | .cons (.el none t c ch) f => isAnnB (.el none t c ch) && tidyF f

/-- Every element with identity `h` has a heading tag. -/
def idHeadB (h : Nat) : Forest → Bool
  | .nil => true
  | .cons (.txt _) f => idHeadB h f
  | .cons (.el i t _ ch) f =>
      (if i = some h then isHeadingTag t else true) && idHeadB h ch && idHeadB h f

/-- The next sibling of the node with identity `h`, if any. -/
def nsibF (h : Nat) : Forest → Option NodeT
  | .nil => none
  | .cons (.txt _) f => nsibF h f
  | .cons (.el i _ _ ch) f =>
      if i = some h then headNodeF f
      else
        match nsibF h ch with
        | some n => some n
        | none => nsibF h f

/-- Whether a previous sibling qualifies as the heading an annotation
fragment must follow: a heading element whose identity is among `S`. -/
def prevHeadOk (S : List Nat) : Option NodeT → Bool
  | some (.el (some j) t _ _) => isHeadingTag t && S.contains j
  | some (.el none _ _ _) => false
  | _ => false

/-- Every annotation fragment in the forest immediately follows a
heading element whose identity is among `S`; the scan carries the
previous sibling. -/
def annPrevOkF (S : List Nat) : Option NodeT → Forest → Bool
  | _, .nil => true
  | _, .cons (.txt s) f => annPrevOkF S (some (.txt s)) f
  | prev, .cons (.el i t c ch) f =>
      (!isAnnB (.el i t c ch) || prevHeadOk S prev) &&
      annPrevOkF S none ch &&
      annPrevOkF S (some (.el i t c ch)) f

/-- A nested test document: an informative section whose only content
is another informative section holding the single heading, so both
marked sections share the same first heading descendant. -/
def cexDoc : Forest :=
  .cons (.el (some 1) "section" ["informative"]
    (.cons (.el (some 2) "section" ["informative"]
      (.cons (.el (some 3) "h2" [] .nil) .nil)) .nil)) .nil

/-- The example document of the spec: a single informative section with
an h3 heading. -/
def witDoc : Forest :=
  .cons (.el (some 1) "section" ["informative"]
    (.cons (.el (some 2) "h3" [] (.cons (.txt "Foo") .nil)) .nil)) .nil

/-! ## Build CLI -/

/-- The options `command-line-args` yields for the builder option list
(part_001 lines 17-42). -/
structure CliOptions where
  help : Bool
  profile : Option String
  debug : Bool
  deriving DecidableEq

/-- Outcome of argument parsing: `commandLineArgs` either throws or
yields options. -/
inductive ParseOutcome where
  | failed : ParseOutcome
  | parsed (opts : CliOptions) : ParseOutcome
  deriving DecidableEq

/-- The environment of a build: whether `require.resolve` finds the
entry module `../js/profile-<name>.js` of a profile, and whether the
webpack stats report compile errors.  File reads and writes of the
boilerplate step are outside the claims and are taken to succeed. -/
structure BuildEnv where
  entryResolves : String → Bool
  webpackErrors : Bool
  deriving Inhabited

/-- `Builder.build({name, debug})` (part_001 lines 112-167): throws a
TypeError without a name; throws when the profile entry module cannot
be resolved (the error names the missing module); throws when the
webpack stats report errors; otherwise succeeds. -/
def builderBuild (env : BuildEnv) (name : Option String) : Except String Unit :=
  match name with
  | none => .error "TypeError: name is required"
  | some n =>
    if env.entryResolves n then
      if env.webpackErrors then .error "webpack compile errors"
      else .ok ()
    else .error ("Cannot find module ../js/profile-" ++ n ++ ".js")

/-- The CLI wrapper (part_001 lines 171-197): exit 127 when parsing
throws, exit 0 on `--help`, return without an explicit exit (so the
process terminates normally, exit status 0) when no profile is named,
exit 1 when the build throws, and exit 0 when it succeeds.  The result
is the explicit exit code, or `none` for the bare return. -/
def cliRun (env : BuildEnv) (p : ParseOutcome) : Option Nat :=
  match p with
  | .failed => some 127
  | .parsed o =>
    if o.help then some 0
    else
      match o.profile with
      | none => none
      | some n =>
        match builderBuild env (some n) with
        | .error _ => some 1
        | .ok _ => some 0

/-! ## Helper lemmas: object lookup -/

/-- First-some choice on options, the shape of shadowing lookups. -/
def oAlt {α : Type} : Option α → Option α → Option α
  | some v, _ => some v
  | none, y => y

theorem oAlt_some {α : Type} (v : α) (y : Option α) : oAlt (some v) y = some v := rfl

theorem oAlt_none {α : Type} (y : Option α) : oAlt none y = y := rfl

theorem getF_single (k₀ k : String) (v : JVal) :
    getF [(k₀, v)] k = if k₀ = k then some v else none := rfl

/-- Lookup across an append: the later (right) object shadows the
earlier one, which is exactly object-spread semantics. -/
theorem getF_append (a b : JObj) (k : String) :
    getF (a ++ b) k = oAlt (getF b k) (getF a k) := by
  induction a with
  | nil => cases h : getF b k <;> simp [getF, oAlt, h]
  | cons kv a ih =>
      obtain ⟨k', v⟩ := kv
      show getF ((k', v) :: (a ++ b)) k = _
      simp only [getF, ih]
      cases h : getF b k <;> cases h2 : getF a k <;> simp [oAlt]

theorem oAlt_absorb {α : Type} (x y z : Option α) :
    oAlt (oAlt (oAlt x y) z) x = oAlt x (oAlt y z) := by
  cases x <;> cases y <;> cases z <;> rfl

theorem oAlt_assoc {α : Type} (x y z : Option α) :
    oAlt (oAlt x y) z = oAlt x (oAlt y z) := by
  cases x <;> rfl

/-- When the status is not the literal "unofficial", `run` performs the
merge. -/
theorem defaultsRun_eq_merge (core : JObj) (dm : JVal) (conf : JObj)
    (h : getF conf "specStatus" ≠ some (.jStr "unofficial")) :
    defaultsRun core dm conf = defaultsMerge core dm conf := by
  unfold defaultsRun
  split
  · next heq => exact absurd heq h
  · rfl

/-- The merged object binds `lint` to the computed lint value. -/
theorem getF_merge_lint (core : JObj) (dm : JVal) (conf : JObj) :
    getF (defaultsMerge core dm conf) "lint" = some (lintValue core conf) := by
  unfold defaultsMerge
  rw [getF_append, getF_single, if_neg (by decide), oAlt_none, getF_append]
  rw [show core ++ netageDefaultsL ++ conf ++ [("lint", lintValue core conf)] =
        core ++ (netageDefaultsL ++ (conf ++ [("lint", lintValue core conf)])) by simp]
  rw [getF_append, getF_append, getF_append, getF_single, if_pos rfl, oAlt_some,
    oAlt_some, oAlt_some, oAlt_some]

/-- The merged object binds `definitionMap` to the external definition
map, shadowing anything the user supplied under that key. -/
theorem getF_merge_dfnMap (core : JObj) (dm : JVal) (conf : JObj) :
    getF (defaultsMerge core dm conf) "definitionMap" = some dm := by
  unfold defaultsMerge
  rw [getF_append, getF_single, if_pos rfl, oAlt_some]

/-- Any key other than `lint` and `definitionMap` resolves to the user
value when present, else the profile default, else the core default. -/
theorem getF_merge_other (core : JObj) (dm : JVal) (conf : JObj) (k : String)
    (hk1 : k ≠ "lint") (hk2 : k ≠ "definitionMap") :
    getF (defaultsMerge core dm conf) k =
      oAlt (getF conf k) (oAlt (getF netageDefaultsL k) (getF core k)) := by
  unfold defaultsMerge
  rw [getF_append, getF_single, if_neg (fun e => hk2 e.symm), oAlt_none, getF_append]
  rw [show core ++ netageDefaultsL ++ conf ++ [("lint", lintValue core conf)] =
        core ++ (netageDefaultsL ++ (conf ++ [("lint", lintValue core conf)])) by simp]
  rw [getF_append, getF_append, getF_append, getF_single,
    if_neg (fun e => hk1 e.symm), oAlt_none]
  exact oAlt_absorb (getF conf k) (getF netageDefaultsL k) (getF core k)

/-- When the user did not disable linting, the computed lint value is
the spread-union of the three lint objects. -/
theorem lintValue_of_not_false (core : JObj) (conf : JObj)
    (h : getF conf "lint" ≠ some (.jBool false)) :
    lintValue core conf =
      .jObj (spreadOf (getF core "lint") ++ spreadOf (getF netageDefaultsL "lint") ++
             spreadOf (getF conf "lint")) := by
  unfold lintValue
  split
  · next heq => exact absurd heq h
  · rfl

/-- When the user set `lint` to the boolean `false`, the computed lint
value is `false`. -/
theorem lintValue_of_false (core : JObj) (conf : JObj)
    (h : getF conf "lint" = some (.jBool false)) :
    lintValue core conf = .jBool false := by
  unfold lintValue
  rw [h]

/-! ## Claim C10 -/

/-- C10: for every configuration whose `specStatus` is the string
"unofficial", the defaults merger returns immediately and the
configuration is entirely unchanged: no core default, no profile
default and no lint merge is applied. -/
theorem defaults_unofficial_frame (core : JObj) (dm : JVal) (conf : JObj)
    (h : getF conf "specStatus" = some (.jStr "unofficial")) :
    defaultsRun core dm conf = conf := by
  unfold defaultsRun
  rw [h]
  rfl

/-- Witness for C10 at a concrete configuration. -/
theorem defaults_unofficial_frame_witness :
    defaultsRun [("a", JVal.jNum 1)] (JVal.jObj [])
        [("specStatus", JVal.jStr "unofficial"), ("x", JVal.jNum 7)] =
      [("specStatus", JVal.jStr "unofficial"), ("x", JVal.jNum 7)] :=
  defaults_unofficial_frame _ _ _ rfl

/-! ## Claim C4 -/

/-- C4, counterexample: for the configuration with `specStatus` set to
"unofficial" (and `lint` absent, hence not the disabling sentinel), the
merger does not produce the nested union of the defaults lint mappings:
it leaves `lint` absent, while the union (here with empty core
defaults) contains the profile rule `privsec-section`. -/
theorem defaults_lint_unofficial_cex :
    getF [("specStatus", JVal.jStr "unofficial")] "lint" ≠ some (JVal.jBool false) ∧
    getF (defaultsRun [] (JVal.jObj []) [("specStatus", JVal.jStr "unofficial")]) "lint" ≠
      some (.jObj (spreadOf (getF ([] : JObj) "lint") ++
                   spreadOf (getF netageDefaultsL "lint") ++
                   spreadOf (getF [("specStatus", JVal.jStr "unofficial")] "lint"))) :=
  ⟨fun h => Option.noConfusion h, fun h => Option.noConfusion h⟩

/-- C4, amended: for every configuration whose `specStatus` is not the
string "unofficial", the effective `lint` after the merger is `false`
exactly when the user set `lint` to the sentinel `false`, and otherwise
is the nested union of the core defaults lint, the profile defaults
lint and the user lint, with later mappings taking precedence per
key. -/
theorem defaults_lint_nested_merge (core : JObj) (dm : JVal) (conf : JObj)
    (h : getF conf "specStatus" ≠ some (.jStr "unofficial")) :
    (getF conf "lint" = some (.jBool false) →
      getF (defaultsRun core dm conf) "lint" = some (.jBool false)) ∧
    (getF conf "lint" ≠ some (.jBool false) →
      getF (defaultsRun core dm conf) "lint" =
        some (.jObj (spreadOf (getF core "lint") ++
                     spreadOf (getF netageDefaultsL "lint") ++
                     spreadOf (getF conf "lint"))) ∧
      ∀ k, getF (spreadOf (getF core "lint") ++
                 spreadOf (getF netageDefaultsL "lint") ++
                 spreadOf (getF conf "lint")) k =
        oAlt (getF (spreadOf (getF conf "lint")) k)
          (oAlt (getF (spreadOf (getF netageDefaultsL "lint")) k)
            (getF (spreadOf (getF core "lint")) k))) := by
  rw [defaultsRun_eq_merge core dm conf h]
  constructor
  · intro hf
    rw [getF_merge_lint, lintValue_of_false core conf hf]
  · intro hnf
    refine ⟨?_, ?_⟩
    · rw [getF_merge_lint, lintValue_of_not_false core conf hnf]
    · intro k
      rw [show spreadOf (getF core "lint") ++ spreadOf (getF netageDefaultsL "lint") ++
            spreadOf (getF conf "lint") =
          spreadOf (getF core "lint") ++ (spreadOf (getF netageDefaultsL "lint") ++
            spreadOf (getF conf "lint")) by simp]
      rw [getF_append, getF_append, oAlt_assoc]

/-- Witness for C4 at concrete configurations: user lint disabled and
user lint as a nested mapping. -/
theorem defaults_lint_nested_merge_witness :
    getF (defaultsRun [] (JVal.jObj []) [("lint", JVal.jBool false)]) "lint" =
      some (JVal.jBool false) :=
  (defaults_lint_nested_merge [] (JVal.jObj []) [("lint", JVal.jBool false)]
    (fun h => Option.noConfusion h)).1 rfl

/-! ## Claim C5 -/

/-- C5, counterexample: the user explicitly supplies
`lint: {a: true}`; after the merger runs (with empty core defaults for
concreteness) the `lint` key no longer holds the user value — the
profile rule `privsec-section` has been merged into it. -/
theorem defaults_user_lint_overridden_cex :
    getF [("lint", JVal.jObj [("a", JVal.jBool true)])] "lint" =
      some (JVal.jObj [("a", JVal.jBool true)]) ∧
    getF (defaultsRun [] (JVal.jObj []) [("lint", JVal.jObj [("a", JVal.jBool true)])]) "lint" ≠
      some (JVal.jObj [("a", JVal.jBool true)]) := by
  refine ⟨rfl, fun h => ?_⟩
  have e : getF (defaultsRun [] (JVal.jObj [])
      [("lint", JVal.jObj [("a", JVal.jBool true)])]) "lint" =
      some (JVal.jObj [("privsec-section", JVal.jBool true), ("a", JVal.jBool true)]) := rfl
  rw [e] at h
  simp at h

/-- C5, amended: for every configuration whose `specStatus` is not the
string "unofficial", after the merger runs every key other than `lint`
and `definitionMap` resolves to the user value when the user supplied
one, otherwise to the profile default, otherwise to the core default
(so recognized keys always have a value and unrecognized user keys pass
through unchanged); `lint` is bound to the specially merged lint value
and `definitionMap` to the engine definition map.  The merger is a
total function, so it always succeeds. -/
theorem defaults_merge_keys (core : JObj) (dm : JVal) (conf : JObj)
    (h : getF conf "specStatus" ≠ some (.jStr "unofficial")) :
    (∀ k, k ≠ "lint" → k ≠ "definitionMap" →
      getF (defaultsRun core dm conf) k =
        oAlt (getF conf k) (oAlt (getF netageDefaultsL k) (getF core k))) ∧
    (∀ k v, k ≠ "lint" → k ≠ "definitionMap" → getF conf k = some v →
      getF (defaultsRun core dm conf) k = some v) ∧
    getF (defaultsRun core dm conf) "definitionMap" = some dm ∧
    getF (defaultsRun core dm conf) "lint" = some (lintValue core conf) := by
  rw [defaultsRun_eq_merge core dm conf h]
  refine ⟨fun k hk1 hk2 => getF_merge_other core dm conf k hk1 hk2,
    fun k v hk1 hk2 hc => ?_, getF_merge_dfnMap core dm conf, getF_merge_lint core dm conf⟩
  rw [getF_merge_other core dm conf k hk1 hk2, hc, oAlt_some]

/-- Witness for C5 at a concrete configuration: the unrecognized user
key passes through, the profile default and the core default fill the
gaps, and the definition map is bound. -/
theorem defaults_merge_keys_witness :
    getF (defaultsRun [("maxTocLevel", JVal.jNum 0)] (JVal.jObj [])
        [("foo", JVal.jStr "bar")]) "foo" = some (JVal.jStr "bar") ∧
    getF (defaultsRun [("maxTocLevel", JVal.jNum 0)] (JVal.jObj [])
        [("foo", JVal.jStr "bar")]) "pluralize" = some (JVal.jBool true) ∧
    getF (defaultsRun [("maxTocLevel", JVal.jNum 0)] (JVal.jObj [])
        [("foo", JVal.jStr "bar")]) "maxTocLevel" = some (JVal.jNum 0) ∧
    getF (defaultsRun [("maxTocLevel", JVal.jNum 0)] (JVal.jObj [])
        [("foo", JVal.jStr "bar")]) "definitionMap" = some (JVal.jObj []) := by
  have hm := defaults_merge_keys [("maxTocLevel", JVal.jNum 0)] (JVal.jObj [])
    [("foo", JVal.jStr "bar")] (fun h => Option.noConfusion h)
  refine ⟨?_, ?_, ?_, hm.2.2.1⟩
  · exact (hm.1 "foo" (by decide) (by decide)).trans rfl
  · exact (hm.1 "pluralize" (by decide) (by decide)).trans rfl
  · exact (hm.1 "maxTocLevel" (by decide) (by decide)).trans rfl

/-! ## Style plugin lemmas -/

/-- Selection of the w3c/style file, case by case on the uppercased
status. -/
theorem w3cStyleFileFor_spec (s : String) :
    (toUpperJS s = "NETAGE-CV" →
      w3cStyleFileFor s = "https://netage.github.io/respec_resources/styles/NETAGE-CV.css") ∧
    (toUpperJS s = "NETAGE-LD" →
      w3cStyleFileFor s = "https://netage.github.io/respec_resources/styles/NETAGE-LD.css") ∧
    (toUpperJS s = "NETAGE-FINAL" →
      w3cStyleFileFor s = "https://netage.github.io/respec_resources/styles/NETAGE-FINAL.css") ∧
    (toUpperJS s = "NETAGE-BASIC" →
      w3cStyleFileFor s = "https://netage.github.io/respec_resources/styles/NETAGE-BASIC.css") ∧
    (toUpperJS s ∉ (["NETAGE-CV", "NETAGE-LD", "NETAGE-FINAL", "NETAGE-BASIC"] : List String) →
      w3cStyleFileFor s = "https://netage.github.io/respec_resources/styles/NETAGE-BASIC.css") := by
  refine ⟨fun h => ?_, fun h => ?_, fun h => ?_, fun h => ?_, fun h => ?_⟩ <;>
    unfold w3cStyleFileFor
  · rw [h]; rfl
  · rw [h]; rfl
  · rw [h]; rfl
  · rw [h]; rfl
  · split
    · next heq => exact absurd (by rw [heq]; decide) h
    · next heq => exact absurd (by rw [heq]; decide) h
    · next heq => exact absurd (by rw [heq]; decide) h
    · next heq => exact absurd (by rw [heq]; decide) h
    · rfl

/-- Selection of the netage/style file, case by case on the uppercased
status. -/
theorem netageStyleFileFor_spec (s : String) :
    (toUpperJS s = "NETAGE-CV" →
      netageStyleFileFor s = "https://docs.netage.nl/respec_resources/styles/NETAGE-CV.css") ∧
    (toUpperJS s = "NETAGE-LD" →
      netageStyleFileFor s = "https://docs.netage.nl/respec_resources/styles/NETAGE-LD.css") ∧
    (toUpperJS s = "NETAGE-FINAL" →
      netageStyleFileFor s = "https://docs.netage.nl/respec_resources/styles/NETAGE-FINAL.css") ∧
    (toUpperJS s = "NETAGE-BASIC" →
      netageStyleFileFor s = "https://docs.netage.nl/respec_resources/styles/NETAGE-BASIC.css") ∧
    (toUpperJS s ∉ (["NETAGE-CV", "NETAGE-LD", "NETAGE-FINAL", "NETAGE-BASIC"] : List String) →
      netageStyleFileFor s = "https://docs.netage.nl/respec_resources/styles/NETAGE-BASIC.css") := by
  refine ⟨fun h => ?_, fun h => ?_, fun h => ?_, fun h => ?_, fun h => ?_⟩ <;>
    unfold netageStyleFileFor
  · rw [h]; rfl
  · rw [h]; rfl
  · rw [h]; rfl
  · rw [h]; rfl
  · split
    · next heq => exact absurd (by rw [heq]; decide) h
    · next heq => exact absurd (by rw [heq]; decide) h
    · next heq => exact absurd (by rw [heq]; decide) h
    · next heq => exact absurd (by rw [heq]; decide) h
    · rfl

/-- A truthy string status is passed to the selection switch
unchanged by the w3c/style run. -/
theorem w3cStyleRun_styleFile (c : StyleConf) (d : DocState) (s : String)
    (hs : c.specStatus = some s) (hne : s ≠ "") :
    (w3cStyleRun c d).styleFile = w3cStyleFileFor s := by
  unfold w3cStyleRun
  simp [isFalsyStatus, hs, hne]

/-- A truthy string status is passed to the selection switch
unchanged by the netage/style run. -/
theorem netageStyleRun_styleFile (c : StyleConf) (d : DocState) (s : String)
    (hs : c.specStatus = some s) (hne : s ≠ "") :
    (netageStyleRun c d).styleFile = netageStyleFileFor s := by
  unfold netageStyleRun
  simp [isFalsyStatus, hs, hne]

/-- A falsy status is replaced before selection, yielding the fallback
stylesheet in both style plugins. -/
theorem styleRun_styleFile_falsy (c : StyleConf) (d d' : DocState)
    (hf : isFalsyStatus c.specStatus = true) :
    (w3cStyleRun c d).styleFile =
      "https://netage.github.io/respec_resources/styles/NETAGE-BASIC.css" ∧
    (netageStyleRun c d').styleFile =
      "https://docs.netage.nl/respec_resources/styles/NETAGE-BASIC.css" := by
  unfold w3cStyleRun netageStyleRun
  rw [hf]
  exact ⟨rfl, rfl⟩

/-! ## Claim C1 -/

/-- C1: for every configuration whose `specStatus` is one of the
recognized codes NETAGE-CV, NETAGE-LD, NETAGE-FINAL, NETAGE-BASIC
compared case-insensitively, `run(conf)` of either style plugin selects
exactly the literal URL mapped to that code; for any other value
(including an absent or empty status) the NETAGE-BASIC fallback URL is
selected. -/
theorem style_run_selects_mapped_url (c : StyleConf) (d d' : DocState) (s : String) :
    (c.specStatus = some s → s ≠ "" →
      ((toUpperJS s = "NETAGE-CV" →
          (w3cStyleRun c d).styleFile =
            "https://netage.github.io/respec_resources/styles/NETAGE-CV.css" ∧
          (netageStyleRun c d').styleFile =
            "https://docs.netage.nl/respec_resources/styles/NETAGE-CV.css") ∧
       (toUpperJS s = "NETAGE-LD" →
          (w3cStyleRun c d).styleFile =
            "https://netage.github.io/respec_resources/styles/NETAGE-LD.css" ∧
          (netageStyleRun c d').styleFile =
            "https://docs.netage.nl/respec_resources/styles/NETAGE-LD.css") ∧
       (toUpperJS s = "NETAGE-FINAL" →
          (w3cStyleRun c d).styleFile =
            "https://netage.github.io/respec_resources/styles/NETAGE-FINAL.css" ∧
          (netageStyleRun c d').styleFile =
            "https://docs.netage.nl/respec_resources/styles/NETAGE-FINAL.css") ∧
       (toUpperJS s = "NETAGE-BASIC" →
          (w3cStyleRun c d).styleFile =
            "https://netage.github.io/respec_resources/styles/NETAGE-BASIC.css" ∧
          (netageStyleRun c d').styleFile =
            "https://docs.netage.nl/respec_resources/styles/NETAGE-BASIC.css") ∧
       (toUpperJS s ∉ (["NETAGE-CV", "NETAGE-LD", "NETAGE-FINAL", "NETAGE-BASIC"] : List String) →
          (w3cStyleRun c d).styleFile =
            "https://netage.github.io/respec_resources/styles/NETAGE-BASIC.css" ∧
          (netageStyleRun c d').styleFile =
            "https://docs.netage.nl/respec_resources/styles/NETAGE-BASIC.css"))) ∧
    (isFalsyStatus c.specStatus = true →
      (w3cStyleRun c d).styleFile =
        "https://netage.github.io/respec_resources/styles/NETAGE-BASIC.css" ∧
      (netageStyleRun c d').styleFile =
        "https://docs.netage.nl/respec_resources/styles/NETAGE-BASIC.css") := by
  refine ⟨fun hs hne => ?_, fun hf => styleRun_styleFile_falsy c d d' hf⟩
  rw [w3cStyleRun_styleFile c d s hs hne, netageStyleRun_styleFile c d' s hs hne]
  have hw := w3cStyleFileFor_spec s
  have hn := netageStyleFileFor_spec s
  exact ⟨fun h => ⟨hw.1 h, hn.1 h⟩,
    fun h => ⟨hw.2.1 h, hn.2.1 h⟩,
    fun h => ⟨hw.2.2.1 h, hn.2.2.1 h⟩,
    fun h => ⟨hw.2.2.2.1 h, hn.2.2.2.1 h⟩,
    fun h => ⟨hw.2.2.2.2 h, hn.2.2.2.2 h⟩⟩

/-- Witness for C1: the lowercase status "netage-ld" selects the LD
stylesheets of both plugins, and an unrecognized status selects the
fallback. -/
theorem style_run_selects_mapped_url_witness :
    ((w3cStyleRun ⟨some "netage-ld", true⟩ ⟨[], [], []⟩).styleFile =
      "https://netage.github.io/respec_resources/styles/NETAGE-LD.css" ∧
     (netageStyleRun ⟨some "netage-ld", true⟩ ⟨[], [], []⟩).styleFile =
      "https://docs.netage.nl/respec_resources/styles/NETAGE-LD.css") ∧
    (w3cStyleRun ⟨some "w3c-note", true⟩ ⟨[], [], []⟩).styleFile =
      "https://netage.github.io/respec_resources/styles/NETAGE-BASIC.css" :=
  ⟨((style_run_selects_mapped_url ⟨some "netage-ld", true⟩ ⟨[], [], []⟩ ⟨[], [], []⟩
      "netage-ld").1 rfl (by decide)).2.1 (by decide),
   (((style_run_selects_mapped_url ⟨some "w3c-note", true⟩ ⟨[], [], []⟩ ⟨[], [], []⟩
      "w3c-note").1 rfl (by decide)).2.2.2.2 (by decide)).1⟩

/-! ## Claim C2 -/

/-- C2 fails on the code: `src/netage/style.js` defines `styleMover`
but never subscribes it (or anything else) to the export/save event, so
after `run(conf)` the export subscriber list is empty and an element
appended to the head after `run` is still the last child of the head
when the export event fires — the stylesheet link is not moved to the
end.  This theorem evaluates that scenario: run with status
NETAGE-BASIC on an empty head, append one element, fire the export
event; the head ends with the appended element, not with the stylesheet
link. -/
theorem style_export_link_not_last :
    (w3cStyleRun ⟨some "NETAGE-BASIC", true⟩ ⟨[], [], []⟩).doc.beforesaveSubs = [] ∧
    (fireBeforesave
      { (w3cStyleRun ⟨some "NETAGE-BASIC", true⟩ ⟨[], [], []⟩).doc with
        headE := (w3cStyleRun ⟨some "NETAGE-BASIC", true⟩ ⟨[], [], []⟩).doc.headE ++
          [.otherEl "style"] }).headE =
      [.styleLink "https://netage.github.io/respec_resources/styles/NETAGE-BASIC.css" false,
       .otherEl "style"] :=
  ⟨rfl, rfl⟩

/-- The mover the source defines but never wires up would indeed move
the link to the end of the head had it been subscribed: applying
`styleMover(linkURL)` to an export document places the link last. -/
theorem styleMoverApply_moves_link_last (head : List HeadEl) (href : String) (l : HeadEl)
    (hfind : head.find? (isLinkHref href) = some l) :
    (styleMoverApply href head).getLast? = some l := by
  unfold styleMoverApply
  rw [hfind]
  rw [List.getLast?_concat]

/-- Witness for the mover lemma at a concrete head. -/
theorem styleMoverApply_moves_link_last_witness :
    (styleMoverApply "u" [HeadEl.styleLink "u" false, HeadEl.otherEl "style"]).getLast? =
      some (HeadEl.styleLink "u" false) :=
  styleMoverApply_moves_link_last _ "u" _ rfl

/-! ## Claim C3 -/

/-- C3 against the code of part_000 (`netage/style`): on a
configuration with `specStatus` absent, `run` substitutes the fallback
code "base" (not the NETAGE-BASIC code the spec documents), publishes
exactly one warning, selects the fallback stylesheet — and then raises
a ReferenceError, because its final statement subscribes the undefined
identifier `moveStyle`.  So the fallback-plus-single-warning behaviour
holds, but "run never fails in this case" does not. -/
theorem netage_style_missing_status_eval :
    netageStyleRun ⟨none, false⟩ ⟨[], [], []⟩ =
      { conf := ⟨some "base", false⟩,
        warns := [netageWarnMsg],
        styleFile := "https://docs.netage.nl/respec_resources/styles/NETAGE-BASIC.css",
        doc := ⟨[.styleLink "https://docs.netage.nl/respec_resources/styles/NETAGE-BASIC.css" false],
                [], []⟩,
        error := some "ReferenceError: moveStyle is not defined" } := rfl

/-- The w3c/style twin of the same logic does satisfy the claim: a
falsy status is replaced by NETAGE-BASIC, exactly one warning is
published, and that run raises nothing. -/
theorem w3c_style_missing_status_fallback (c : StyleConf) (d : DocState)
    (hf : isFalsyStatus c.specStatus = true) :
    (w3cStyleRun c d).conf.specStatus = some "NETAGE-BASIC" ∧
    (w3cStyleRun c d).warns.length = 1 ∧
    (w3cStyleRun c d).error = none := by
  unfold w3cStyleRun
  rw [hf]
  exact ⟨rfl, rfl, rfl⟩

/-- Witness for the w3c/style fallback lemma. -/
theorem w3c_style_missing_status_fallback_witness :
    (w3cStyleRun ⟨none, true⟩ ⟨[], [], []⟩).conf.specStatus = some "NETAGE-BASIC" ∧
    (w3cStyleRun ⟨none, true⟩ ⟨[], [], []⟩).warns.length = 1 ∧
    (w3cStyleRun ⟨none, true⟩ ⟨[], [], []⟩).error = none :=
  w3c_style_missing_status_fallback ⟨none, true⟩ ⟨[], [], []⟩ rfl

/-! ## Claim C7 -/

/-- C7 fails on the code: every invocation of `run(conf)` of the
`netage/style` module (part_000) raises a ReferenceError, whatever the
configuration and document state, because its last statement evaluates
the undefined identifier `moveStyle`. -/
theorem netage_style_run_always_raises (c : StyleConf) (d : DocState) :
    (netageStyleRun c d).error = some "ReferenceError: moveStyle is not defined" := rfl

/-! ## Claim C9 -/

/-- C9: if the head holds no viewport meta before the style plugin
module loads, afterwards exactly one viewport meta exists and it is the
first child of the head; if one already exists, none is added. -/
theorem style_module_viewport_meta (head : List HeadEl) :
    (head.any isMetaVp = false →
      (w3cModuleLoad head).countP isMetaVp = 1 ∧
      (w3cModuleLoad head).head? = some .metaViewport) ∧
    (head.any isMetaVp = true →
      (w3cModuleLoad head).countP isMetaVp = head.countP isMetaVp) := by
  constructor
  · intro h
    have hz : head.countP isMetaVp = 0 := by
      rw [List.countP_eq_zero]
      intro a ha
      have := (List.any_eq_false).1 h a ha
      simpa using this
    unfold w3cModuleLoad
    rw [h]
    refine ⟨?_, rfl⟩
    show ((HeadEl.metaViewport :: w3cModuleElements) ++ head).countP isMetaVp = 1
    rw [List.cons_append]
    have h1 : (HeadEl.metaViewport :: (w3cModuleElements ++ head)).countP isMetaVp =
        (w3cModuleElements ++ head).countP isMetaVp + 1 :=
      List.countP_cons_of_pos _ _ rfl
    rw [h1, List.countP_append, hz]
    decide
  · intro h
    unfold w3cModuleLoad
    rw [h]
    show (w3cModuleElements ++ head).countP isMetaVp = head.countP isMetaVp
    rw [List.countP_append]
    have hm : w3cModuleElements.countP isMetaVp = 0 := by decide
    rw [hm, Nat.zero_add]

/-- Witness for C9: loading over an empty head, and over a head that
already holds the viewport meta. -/
theorem style_module_viewport_meta_witness :
    ((w3cModuleLoad []).countP isMetaVp = 1 ∧
     (w3cModuleLoad []).head? = some .metaViewport) ∧
    (w3cModuleLoad [HeadEl.metaViewport]).countP isMetaVp =
      ([HeadEl.metaViewport] : List HeadEl).countP isMetaVp :=
  ⟨(style_module_viewport_meta []).1 rfl,
   (style_module_viewport_meta [HeadEl.metaViewport]).2 rfl⟩

/-! ## Claim C8 -/

/-- C8: the build CLI exits 127 when argument parsing fails, 0 on
`--help`, 0 on a successful build and 1 when the build fails; and
`build` fails with a descriptive error when the profile entry module
cannot be resolved or when the bundler reports compile errors. -/
theorem builder_cli_exit_codes (env : BuildEnv) (o : CliOptions) (n : String) :
    cliRun env .failed = some 127 ∧
    (o.help = true → cliRun env (.parsed o) = some 0) ∧
    (o.help = false → o.profile = some n → env.entryResolves n = true →
      env.webpackErrors = false → cliRun env (.parsed o) = some 0) ∧
    (o.help = false → o.profile = some n → env.entryResolves n = false →
      cliRun env (.parsed o) = some 1 ∧
      builderBuild env (some n) =
        .error ("Cannot find module ../js/profile-" ++ n ++ ".js")) ∧
    (o.help = false → o.profile = some n → env.entryResolves n = true →
      env.webpackErrors = true →
      cliRun env (.parsed o) = some 1 ∧
      builderBuild env (some n) = .error "webpack compile errors") := by
  refine ⟨rfl, fun hh => ?_, fun hh hp hr hw => ?_, fun hh hp hr => ?_, fun hh hp hr hw => ?_⟩
  · simp [cliRun, hh]
  · simp [cliRun, hh, hp, builderBuild, hr, hw]
  · have hb : builderBuild env (some n) =
        .error ("Cannot find module ../js/profile-" ++ n ++ ".js") := by
      simp [builderBuild, hr]
    refine ⟨?_, hb⟩
    simp [cliRun, hh, hp, hb]
  · have hb : builderBuild env (some n) = .error "webpack compile errors" := by
      simp [builderBuild, hr, hw]
    refine ⟨?_, hb⟩
    simp [cliRun, hh, hp, hb]

/-- Witness for C8: a concrete environment where the profile
"w3c-common" resolves and webpack succeeds, and one where neither. -/
theorem builder_cli_exit_codes_witness :
    cliRun ⟨fun _ => true, false⟩ .failed = some 127 ∧
    cliRun ⟨fun _ => true, false⟩ (.parsed ⟨true, none, false⟩) = some 0 ∧
    cliRun ⟨fun _ => true, false⟩ (.parsed ⟨false, some "w3c-common", false⟩) = some 0 ∧
    cliRun ⟨fun _ => false, false⟩ (.parsed ⟨false, some "w3c-common", false⟩) = some 1 := by
  have h1 := builder_cli_exit_codes ⟨fun _ => true, false⟩ ⟨true, none, false⟩ "w3c-common"
  have h2 := builder_cli_exit_codes ⟨fun _ => true, false⟩ ⟨false, some "w3c-common", false⟩
    "w3c-common"
  have h3 := builder_cli_exit_codes ⟨fun _ => false, false⟩ ⟨false, some "w3c-common", false⟩
    "w3c-common"
  exact ⟨h1.1, h1.2.1 rfl, h2.2.2.1 rfl rfl rfl rfl, (h3.2.2.2.1 rfl rfl rfl).1⟩

/-! ## Informative-annotator lemmas -/

/-- Induction over forests that also descends into the children of
element nodes. -/
theorem forestInd (P : Forest → Prop)
    (hnil : P .nil)
    (htxt : ∀ s f, P f → P (.cons (.txt s) f))
    (hel : ∀ i t c ch f, P ch → P f → P (.cons (.el i t c ch) f)) :
    ∀ f, P f
  | .nil => hnil
  | .cons (.txt s) f => htxt s f (forestInd P hnil htxt hel f)
  | .cons (.el i t c ch) f =>
      hel i t c ch f (forestInd P hnil htxt hel ch) (forestInd P hnil htxt hel f)

theorem isAnn_annot : isAnnB annotN = true := by decide

theorem isAnn_el_some (j : Nat) (t : String) (c : List String) (ch : Forest) :
    isAnnB (.el (some j) t c ch) = false := by
  simp [isAnnB, annotN]

theorem isAnn_none_eq (t : String) (c : List String) (ch : Forest)
    (h : isAnnB (.el none t c ch) = true) : NodeT.el none t c ch = annotN := by
  simpa [isAnnB] using h

theorem isAnn_annot_shape : isAnnB (NodeT.el none "p" []
    (.cons (.el none "em" [] (.cons (.txt "This section is non-normative.") .nil)) .nil)) =
    true := by decide

theorem isAnn_em_shape : isAnnB (NodeT.el none "em"
    [] (.cons (.txt "This section is non-normative.") .nil)) = false := by decide

theorem insAF_cons_annot (k : Nat) (a : NodeT) (f : Forest) :
    insAF k a (.cons annotN f) = .cons annotN (insAF k a f) := rfl

theorem idsF_cons_annot (f : Forest) : idsF (.cons annotN f) = idsF f := rfl

theorem tidyF_cons_annot (f : Forest) : tidyF (.cons annotN f) = tidyF f := rfl

theorem countAnnF_cons_annot (f : Forest) :
    countAnnF (.cons annotN f) = 1 + countAnnF f := rfl

theorem idHeadB_cons_annot (h : Nat) (f : Forest) :
    idHeadB h (.cons annotN f) = idHeadB h f := rfl

theorem nsibF_cons_annot (h : Nat) (f : Forest) :
    nsibF h (.cons annotN f) = nsibF h f := rfl

/-- Inserting the annotation adds no element identities. -/
theorem idsF_insAF (k : Nat) : ∀ f, idsF (insAF k annotN f) = idsF f := by
  intro f
  induction f using forestInd with
  | hnil => rfl
  | htxt s f ih => simp [insAF, idsF, ih]
  | hel i t c ch f ih1 ih2 =>
      by_cases hik : i = some k
      · subst hik
        simp [insAF, idsF, ih1, ih2, idsF_cons_annot]
      · simp [insAF, hik, idsF, ih1, ih2]

/-- Inserting the annotation preserves tidiness. -/
theorem tidyF_insAF (k : Nat) : ∀ f, tidyF f = true → tidyF (insAF k annotN f) = true := by
  intro f
  induction f using forestInd with
  | hnil => intro h; exact h
  | htxt s f ih =>
      intro h
      simp only [insAF, tidyF] at *
      exact ih h
  | hel i t c ch f ih1 ih2 =>
      intro h
      cases i with
      | some j =>
          simp only [tidyF, Bool.and_eq_true] at h
          by_cases hik : some j = some k
          · rw [show insAF k annotN (.cons (.el (some j) t c ch) f) =
                .cons (.el (some j) t c (insAF k annotN ch)) (.cons annotN (insAF k annotN f))
                by simp [insAF, hik]]
            simp only [tidyF, tidyF_cons_annot, Bool.and_eq_true]
            exact ⟨ih1 h.1, isAnn_annot, ih2 h.2⟩
          · rw [show insAF k annotN (.cons (.el (some j) t c ch) f) =
                .cons (.el (some j) t c (insAF k annotN ch)) (insAF k annotN f)
                by simp [insAF, hik]]
            simp only [tidyF, Bool.and_eq_true]
            exact ⟨ih1 h.1, ih2 h.2⟩
      | none =>
          simp only [tidyF, Bool.and_eq_true] at h
          have e := isAnn_none_eq t c ch h.1
          rw [e, insAF_cons_annot, tidyF_cons_annot]
          exact ih2 h.2

theorem nsibF_cons_el_ne (h : Nat) (i : Option Nat) (t : String) (c : List String)
    (ch f : Forest) (hih : i ≠ some h) :
    nsibF h (.cons (.el i t c ch) f) =
      (match nsibF h ch with | some n => some n | none => nsibF h f) := by
  simp [nsibF, hih]

theorem mem_idsF_cons_el (k : Nat) (i : Option Nat) (t : String) (c : List String)
    (ch f : Forest) :
    k ∈ idsF (.cons (.el i t c ch) f) ↔ (i = some k ∨ k ∈ idsF ch ∨ k ∈ idsF f) := by
  cases i <;> simp [idsF, eq_comm]

/-- Inserting after identity `k` adds one annotation per occurrence of
`k` (on tidy forests, where pre-existing none-identity elements are
exactly earlier annotations, whose shape insertion never changes). -/
theorem countAnnF_insAF (k : Nat) : ∀ f, tidyF f = true →
    countAnnF (insAF k annotN f) = countAnnF f + (idsF f).count k := by
  intro f
  induction f using forestInd with
  | hnil => intro _; rfl
  | htxt s f ih =>
      intro h
      simp only [tidyF] at h
      simp [insAF, countAnnF, idsF, ih h]
  | hel i t c ch f ih1 ih2 =>
      intro h
      cases i with
      | some j =>
          simp only [tidyF, Bool.and_eq_true] at h
          by_cases hjk : j = k
          · rw [show insAF k annotN (.cons (.el (some j) t c ch) f) =
                .cons (.el (some j) t c (insAF k annotN ch)) (.cons annotN (insAF k annotN f))
                by simp [insAF, hjk]]
            simp only [countAnnF, countAnnF_cons_annot, idsF, isAnn_el_some,
              ih1 h.1, ih2 h.2, List.count_append]
            rw [show (([j] : List Nat).count k) = 1 by
              rw [List.count_singleton]
              simp [hjk]]
            simp only [isAnn_annot_shape, isAnn_em_shape, Bool.false_eq_true, if_false, if_true]
            omega
          · rw [show insAF k annotN (.cons (.el (some j) t c ch) f) =
                .cons (.el (some j) t c (insAF k annotN ch)) (insAF k annotN f)
                by simp [insAF, hjk]]
            simp only [countAnnF, idsF, isAnn_el_some, ih1 h.1, ih2 h.2, List.count_append]
            rw [show (([j] : List Nat).count k) = 0 by
              rw [List.count_singleton]
              simp
              intro e
              exact hjk e]
            simp only [isAnn_annot_shape, isAnn_em_shape, Bool.false_eq_true, if_false, if_true]
            omega
      | none =>
          simp only [tidyF, Bool.and_eq_true] at h
          have e := isAnn_none_eq t c ch h.1
          rw [e, insAF_cons_annot, countAnnF_cons_annot, countAnnF_cons_annot,
            idsF_cons_annot, ih2 h.2]
          omega

/-- Insertion never changes which identities carry heading tags. -/
theorem idHeadB_insAF (h k : Nat) : ∀ f, idHeadB h (insAF k annotN f) = idHeadB h f := by
  intro f
  induction f using forestInd with
  | hnil => rfl
  | htxt s f ih => simp [insAF, idHeadB, ih]
  | hel i t c ch f ih1 ih2 =>
      by_cases hik : i = some k
      · rw [show insAF k annotN (.cons (.el i t c ch) f) =
            .cons (.el i t c (insAF k annotN ch)) (.cons annotN (insAF k annotN f))
            by simp [insAF, hik]]
        simp [idHeadB, ih1, ih2]
      · rw [show insAF k annotN (.cons (.el i t c ch) f) =
            .cons (.el i t c (insAF k annotN ch)) (insAF k annotN f)
            by simp [insAF, hik]]
        simp [idHeadB, ih1, ih2]

/-- An identity absent from a forest has no next sibling there. -/
theorem nsibF_none_of_not_mem (h : Nat) : ∀ f, h ∉ idsF f → nsibF h f = none := by
  intro f
  induction f using forestInd with
  | hnil => intro _; rfl
  | htxt s f ih =>
      intro hm
      simp only [idsF] at hm
      simp [nsibF, ih hm]
  | hel i t c ch f ih1 ih2 =>
      intro hm
      rw [mem_idsF_cons_el] at hm
      push_neg at hm
      rw [nsibF_cons_el_ne h i t c ch f hm.1, ih1 hm.2.1, ih2 hm.2.2]

/-- Inserting after `k` places the annotation as the next sibling of
the node with identity `k`. -/
theorem nsibF_insAF_self (k : Nat) : ∀ f, k ∈ idsF f →
    nsibF k (insAF k annotN f) = some annotN := by
  intro f
  induction f using forestInd with
  | hnil => intro hm; exact absurd hm (by simp [idsF])
  | htxt s f ih =>
      intro hm
      simp only [idsF] at hm
      simp [insAF, nsibF, ih hm]
  | hel i t c ch f ih1 ih2 =>
      intro hm
      by_cases hik : i = some k
      · rw [show insAF k annotN (.cons (.el i t c ch) f) =
            .cons (.el i t c (insAF k annotN ch)) (.cons annotN (insAF k annotN f))
            by simp [insAF, hik]]
        rw [show nsibF k (.cons (.el i t c (insAF k annotN ch))
              (.cons annotN (insAF k annotN f))) =
            headNodeF (.cons annotN (insAF k annotN f)) by simp [nsibF, hik]]
        rfl
      · rw [show insAF k annotN (.cons (.el i t c ch) f) =
            .cons (.el i t c (insAF k annotN ch)) (insAF k annotN f)
            by simp [insAF, hik]]
        rw [mem_idsF_cons_el] at hm
        rcases hm with (hm | hm | hm)
        · exact absurd hm hik
        · rw [nsibF_cons_el_ne k i t c _ _ hik, ih1 hm]
        · rw [nsibF_cons_el_ne k i t c _ _ hik]
          by_cases hch : k ∈ idsF ch
          · rw [ih1 hch]
          · rw [nsibF_none_of_not_mem k (insAF k annotN ch) (by rw [idsF_insAF]; exact hch),
              ih2 hm]

theorem nsibF_cons_el_self (h : Nat) (t : String) (c : List String) (ch f : Forest) :
    nsibF h (.cons (.el (some h) t c ch) f) = headNodeF f := by
  simp [nsibF]

/-- Inserting after a different identity cannot give a node a next
sibling it did not have. -/
theorem nsibF_insAF_none (h k : Nat) (hk : h ≠ k) : ∀ f, nsibF h f = none →
    nsibF h (insAF k annotN f) = none := by
  intro f
  induction f using forestInd with
  | hnil => intro _; rfl
  | htxt s f ih =>
      intro hn
      simp only [nsibF] at hn
      simp [insAF, nsibF, ih hn]
  | hel i t c ch f ih1 ih2 =>
      intro hn
      by_cases hih : i = some h
      · have hik : i ≠ some k := by
          rw [hih]
          intro e
          exact hk (Option.some.inj e)
        rw [hih] at hn ⊢
        rw [nsibF_cons_el_self] at hn
        cases f with
        | cons n f2 => exact absurd hn (by simp [headNodeF])
        | nil =>
            rw [show insAF k annotN (.cons (.el (some h) t c ch) .nil) =
                .cons (.el (some h) t c (insAF k annotN ch)) .nil
                by simp [insAF, hk]]
            rw [nsibF_cons_el_self]
            rfl
      · rw [nsibF_cons_el_ne h i t c ch f hih] at hn
        have hpair : nsibF h ch = none ∧ nsibF h f = none := by
          cases hc : nsibF h ch with
          | some v => rw [hc] at hn; exact absurd hn (by simp)
          | none => rw [hc] at hn; exact ⟨rfl, hn⟩
        by_cases hik : i = some k
        · rw [show insAF k annotN (.cons (.el i t c ch) f) =
              .cons (.el i t c (insAF k annotN ch)) (.cons annotN (insAF k annotN f))
              by simp [insAF, hik]]
          rw [nsibF_cons_el_ne h i t c _ _ hih, ih1 hpair.1, nsibF_cons_annot, ih2 hpair.2]
        · rw [show insAF k annotN (.cons (.el i t c ch) f) =
              .cons (.el i t c (insAF k annotN ch)) (insAF k annotN f)
              by simp [insAF, hik]]
          rw [nsibF_cons_el_ne h i t c _ _ hih, ih1 hpair.1, ih2 hpair.2]

/-- Inserting after a different identity keeps the annotation that
already follows the node with identity `h`. -/
theorem nsibF_insAF_keep (h k : Nat) (hk : h ≠ k) : ∀ f, nsibF h f = some annotN →
    nsibF h (insAF k annotN f) = some annotN := by
  intro f
  induction f using forestInd with
  | hnil => intro hn; exact absurd hn (by simp [nsibF])
  | htxt s f ih =>
      intro hn
      simp only [nsibF] at hn
      simp [insAF, nsibF, ih hn]
  | hel i t c ch f ih1 ih2 =>
      intro hn
      by_cases hih : i = some h
      · have hik : i ≠ some k := by
          rw [hih]
          intro e
          exact hk (Option.some.inj e)
        rw [hih] at hn ⊢
        rw [nsibF_cons_el_self] at hn
        cases f with
        | nil => exact absurd hn (by simp [headNodeF])
        | cons n f2 =>
            have hne : n = annotN := by
              simp only [headNodeF] at hn
              exact Option.some.inj hn
            rw [hne]
            rw [show insAF k annotN (.cons (.el (some h) t c ch) (.cons annotN f2)) =
                .cons (.el (some h) t c (insAF k annotN ch))
                  (insAF k annotN (.cons annotN f2))
                by simp [insAF, hk]]
            rw [insAF_cons_annot, nsibF_cons_el_self]
            rfl
      · rw [nsibF_cons_el_ne h i t c ch f hih] at hn
        by_cases hik : i = some k
        · rw [show insAF k annotN (.cons (.el i t c ch) f) =
              .cons (.el i t c (insAF k annotN ch)) (.cons annotN (insAF k annotN f))
              by simp [insAF, hik]]
          rw [nsibF_cons_el_ne h i t c _ _ hih, nsibF_cons_annot]
          cases hc : nsibF h ch with
          | some v =>
              rw [hc] at hn
              have hv : v = annotN := Option.some.inj hn
              rw [ih1 (by rw [hc, hv])]
          | none =>
              rw [hc] at hn
              rw [nsibF_insAF_none h k hk ch hc, ih2 hn]
        · rw [show insAF k annotN (.cons (.el i t c ch) f) =
              .cons (.el i t c (insAF k annotN ch)) (insAF k annotN f)
              by simp [insAF, hik]]
          rw [nsibF_cons_el_ne h i t c _ _ hih]
          cases hc : nsibF h ch with
          | some v =>
              rw [hc] at hn
              have hv : v = annotN := Option.some.inj hn
              rw [ih1 (by rw [hc, hv])]
          | none =>
              rw [hc] at hn
              rw [nsibF_insAF_none h k hk ch hc, ih2 hn]

theorem prevHeadOk_el_some (S : List Nat) (j : Nat) (t : String) (c : List String)
    (ch : Forest) :
    prevHeadOk S (some (.el (some j) t c ch)) = (isHeadingTag t && S.contains j) := rfl

theorem prevHeadOk_annot (S : List Nat) : prevHeadOk S (some annotN) = false := rfl

theorem containsTrue (S : List Nat) (a : Nat) : S.contains a = true ↔ a ∈ S :=
  List.elem_iff

theorem prevHeadOk_mono (S S' : List Nat) (hss : ∀ x, x ∈ S → x ∈ S') (p : Option NodeT)
    (h : prevHeadOk S p = true) : prevHeadOk S' p = true := by
  match p with
  | none => exact absurd h (by simp [prevHeadOk])
  | some (.txt s) => exact absurd h (by simp [prevHeadOk])
  | some (.el none t c ch) => exact absurd h (by simp [prevHeadOk])
  | some (.el (some j) t c ch) =>
      rw [prevHeadOk_el_some, Bool.and_eq_true] at h ⊢
      exact ⟨h.1, (containsTrue S' j).2 (hss j ((containsTrue S j).1 h.2))⟩

theorem annPrev_cons_txt (S : List Nat) (p : Option NodeT) (s : String) (f : Forest) :
    annPrevOkF S p (.cons (.txt s) f) = annPrevOkF S (some (.txt s)) f := rfl

theorem annPrev_cons_el (S : List Nat) (p : Option NodeT) (i : Option Nat) (t : String)
    (c : List String) (ch f : Forest) :
    annPrevOkF S p (.cons (.el i t c ch) f) =
      ((!isAnnB (.el i t c ch) || prevHeadOk S p) && annPrevOkF S none ch &&
       annPrevOkF S (some (.el i t c ch)) f) := rfl

theorem annPrev_annot_children (S : List Nat) :
    annPrevOkF S none (childrenF annotN) = true := rfl

theorem annPrev_cons_annot (S : List Nat) (p : Option NodeT) (f : Forest) :
    annPrevOkF S p (.cons annotN f) =
      (prevHeadOk S p && annPrevOkF S (some annotN) f) := by
  show ((!isAnnB annotN || prevHeadOk S p) && annPrevOkF S none (childrenF annotN) &&
      annPrevOkF S (some annotN) f) = _
  rw [isAnn_annot, annPrev_annot_children]
  simp

theorem annPrevOkF_mono (S S' : List Nat) (hss : ∀ x, x ∈ S → x ∈ S') :
    ∀ f p, annPrevOkF S p f = true → annPrevOkF S' p f = true := by
  intro f
  induction f using forestInd with
  | hnil => intro p _; rfl
  | htxt s f ih =>
      intro p h
      rw [annPrev_cons_txt] at h ⊢
      exact ih _ h
  | hel i t c ch f ih1 ih2 =>
      intro p h
      rw [annPrev_cons_el, Bool.and_eq_true, Bool.and_eq_true] at h ⊢
      refine ⟨⟨?_, ih1 _ h.1.2⟩, ih2 _ h.2⟩
      have hor := h.1.1
      rw [Bool.or_eq_true] at hor
      rw [Bool.or_eq_true]
      rcases hor with (ha | hp)
      · exact Or.inl ha
      · exact Or.inr (prevHeadOk_mono S S' hss p hp)

/-- Inserting the annotation after the heading with identity `hid` (not
yet processed, i.e. not in `P`) preserves the invariant that every
annotation immediately follows a processed heading, and extends it to
`hid`. -/
theorem annPrevOkF_insAF (hid : Nat) (P : List Nat) (hP : hid ∉ P) :
    ∀ f p q, tidyF f = true → idHeadB hid f = true →
      (prevHeadOk P p = true → prevHeadOk (hid :: P) q = true) →
      annPrevOkF P p f = true → annPrevOkF (hid :: P) q (insAF hid annotN f) = true := by
  intro f
  induction f using forestInd with
  | hnil =>
      intro p q _ _ _ _
      rfl
  | htxt s f ih =>
      intro p q ht hh himp hok
      rw [annPrev_cons_txt] at hok
      rw [show insAF hid annotN (.cons (.txt s) f) = .cons (.txt s) (insAF hid annotN f)
        from rfl, annPrev_cons_txt]
      refine ih _ _ ht hh (fun hc => absurd hc ?_) hok
      rw [show prevHeadOk P (some (.txt s)) = false from rfl]
      simp
  | hel i t c ch f ih1 ih2 =>
      intro p q ht hh himp hok
      cases i with
      | some j =>
          rw [show tidyF (.cons (.el (some j) t c ch) f) = (tidyF ch && tidyF f)
            from rfl, Bool.and_eq_true] at ht
          rw [show idHeadB hid (.cons (.el (some j) t c ch) f) =
            ((if some j = some hid then isHeadingTag t else true) && idHeadB hid ch &&
             idHeadB hid f) from rfl, Bool.and_eq_true, Bool.and_eq_true] at hh
          rw [annPrev_cons_el] at hok
          simp only [isAnn_el_some, Bool.not_false, Bool.true_or, Bool.true_and,
            Bool.and_eq_true] at hok
          by_cases hjk : j = hid
          · rw [show insAF hid annotN (.cons (.el (some j) t c ch) f) =
                .cons (.el (some j) t c (insAF hid annotN ch))
                  (.cons annotN (insAF hid annotN f)) by simp [insAF, hjk]]
            rw [annPrev_cons_el, Bool.and_eq_true, Bool.and_eq_true]
            refine ⟨⟨by simp [isAnn_el_some], ?_⟩, ?_⟩
            · refine ih1 none none ht.1 hh.1.2 (fun hc => absurd hc ?_) hok.1
              rw [show prevHeadOk P (none : Option NodeT) = false from rfl]
              simp
            · rw [annPrev_cons_annot, Bool.and_eq_true]
              constructor
              · rw [prevHeadOk_el_some, Bool.and_eq_true]
                have hhj := hh.1.1
                rw [if_pos (by rw [hjk])] at hhj
                refine ⟨hhj, ?_⟩
                rw [hjk]
                exact (containsTrue _ _).2 (List.mem_cons_self hid P)
              · refine ih2 (some (.el (some j) t c ch)) (some annotN) ht.2 hh.2
                  (fun hc => ?_) hok.2
                rw [prevHeadOk_el_some, Bool.and_eq_true] at hc
                exact absurd (hjk ▸ (containsTrue _ _).1 hc.2) hP
          · rw [show insAF hid annotN (.cons (.el (some j) t c ch) f) =
                .cons (.el (some j) t c (insAF hid annotN ch)) (insAF hid annotN f)
                by simp [insAF, hjk]]
            rw [annPrev_cons_el, Bool.and_eq_true, Bool.and_eq_true]
            refine ⟨⟨by simp [isAnn_el_some], ?_⟩, ?_⟩
            · refine ih1 none none ht.1 hh.1.2 (fun hc => absurd hc ?_) hok.1
              rw [show prevHeadOk P (none : Option NodeT) = false from rfl]
              simp
            · refine ih2 (some (.el (some j) t c ch))
                (some (.el (some j) t c (insAF hid annotN ch))) ht.2 hh.2
                (fun hc => ?_) hok.2
              rw [prevHeadOk_el_some, Bool.and_eq_true] at hc
              rw [prevHeadOk_el_some, Bool.and_eq_true]
              exact ⟨hc.1, (containsTrue _ _).2
                (List.mem_cons_of_mem _ ((containsTrue _ _).1 hc.2))⟩
      | none =>
          rw [show tidyF (.cons (.el none t c ch) f) =
            (isAnnB (.el none t c ch) && tidyF f) from rfl, Bool.and_eq_true] at ht
          have e := isAnn_none_eq t c ch ht.1
          rw [e] at hok hh ⊢
          rw [idHeadB_cons_annot] at hh
          rw [annPrev_cons_annot, Bool.and_eq_true] at hok
          rw [insAF_cons_annot, annPrev_cons_annot, Bool.and_eq_true]
          refine ⟨himp hok.1, ih2 (some annotN) (some annotN) ht.2 hh
            (fun hc => absurd hc ?_) hok.2⟩
          rw [prevHeadOk_annot]
          simp

theorem applyAllF_nil (d : Forest) : applyAllF [] d = d := rfl

theorem applyAllF_cons (h : Nat) (t : List Nat) (d : Forest) :
    applyAllF (h :: t) d = applyAllF t (insAF h annotN d) := rfl

theorem idsF_applyAll : ∀ l (d : Forest), idsF (applyAllF l d) = idsF d := by
  intro l
  induction l with
  | nil => intro d; rfl
  | cons h t ih =>
      intro d
      rw [applyAllF_cons, ih, idsF_insAF]

theorem tidyF_applyAll : ∀ l (d : Forest), tidyF d = true → tidyF (applyAllF l d) = true := by
  intro l
  induction l with
  | nil => intro d hd; exact hd
  | cons h t ih =>
      intro d hd
      rw [applyAllF_cons]
      exact ih _ (tidyF_insAF h d hd)

theorem countAnnF_applyAll : ∀ l (d : Forest), tidyF d = true → (idsF d).Nodup →
    (∀ h ∈ l, h ∈ idsF d) → countAnnF (applyAllF l d) = countAnnF d + l.length := by
  intro l
  induction l with
  | nil => intro d _ _ _; rfl
  | cons h t ih =>
      intro d hd hnd hmem
      rw [applyAllF_cons, ih (insAF h annotN d) (tidyF_insAF h d hd)
        (by rw [idsF_insAF]; exact hnd)
        (fun x hx => by rw [idsF_insAF]; exact hmem x (List.mem_cons_of_mem h hx))]
      rw [countAnnF_insAF h d hd,
        List.count_eq_one_of_mem hnd (hmem h (List.mem_cons_self h t))]
      simp only [List.length_cons]
      omega

theorem nsibF_applyAll_keep : ∀ l (h : Nat) (d : Forest), h ∉ l →
    nsibF h d = some annotN → nsibF h (applyAllF l d) = some annotN := by
  intro l
  induction l with
  | nil => intro h d _ hs; exact hs
  | cons k t ih =>
      intro h d hnm hs
      rw [applyAllF_cons]
      have hk : h ≠ k := fun e => hnm (e ▸ List.mem_cons_self k t)
      exact ih h _ (fun hm => hnm (List.mem_cons_of_mem k hm))
        (nsibF_insAF_keep h k hk d hs)

theorem nsibF_applyAll : ∀ l (d : Forest), l.Nodup → (∀ x ∈ l, x ∈ idsF d) →
    ∀ h ∈ l, nsibF h (applyAllF l d) = some annotN := by
  intro l
  induction l with
  | nil => intro d _ _ h hm; exact absurd hm (List.not_mem_nil h)
  | cons k t ih =>
      intro d hnd hmem h hm
      have hkt : k ∉ t := (List.nodup_cons.1 hnd).1
      rcases List.mem_cons.1 hm with (rfl | hm')
      · rw [applyAllF_cons]
        exact nsibF_applyAll_keep t h _ hkt
          (nsibF_insAF_self h d (hmem h (List.mem_cons_self h t)))
      · rw [applyAllF_cons]
        exact ih (insAF k annotN d) (List.nodup_cons.1 hnd).2
          (fun x hx => by rw [idsF_insAF]; exact hmem x (List.mem_cons_of_mem k hx))
          h hm'

theorem annPrevOkF_applyAll : ∀ l (P : List Nat) (d : Forest), tidyF d = true →
    (∀ h ∈ l, idHeadB h d = true) → (∀ h ∈ l, h ∉ P) → l.Nodup →
    annPrevOkF P none d = true →
    annPrevOkF (List.reverseAux l P) none (applyAllF l d) = true := by
  intro l
  induction l with
  | nil => intro P d _ _ _ _ hok; exact hok
  | cons h t ih =>
      intro P d hd hhd hP hnd hok
      rw [show List.reverseAux (h :: t) P = List.reverseAux t (h :: P) from rfl,
        applyAllF_cons]
      have hstep : annPrevOkF (h :: P) none (insAF h annotN d) = true := by
        refine annPrevOkF_insAF h P (hP h (List.mem_cons_self h t)) d none none hd
          (hhd h (List.mem_cons_self h t)) (fun hc => absurd hc ?_) hok
        rw [show prevHeadOk P (none : Option NodeT) = false from rfl]
        simp
      refine ih (h :: P) (insAF h annotN d) (tidyF_insAF h d hd)
        (fun x hx => by rw [idHeadB_insAF]; exact hhd x (List.mem_cons_of_mem h hx))
        (fun x hx => ?_) (List.nodup_cons.1 hnd).2 hstep
      intro hmem
      rcases List.mem_cons.1 hmem with (rfl | hmem')
      · exact (List.nodup_cons.1 hnd).1 hx
      · exact hP x (List.mem_cons_of_mem h hx) hmem'

theorem preF_sub : ∀ f n, n ∈ preF f → ∀ x, x ∈ preF (childrenF n) → x ∈ preF f := by
  intro f
  induction f using forestInd with
  | hnil =>
      intro n hn
      exact absurd hn (by simp [preF])
  | htxt s f ih =>
      intro n hn x hx
      rw [show preF (.cons (.txt s) f) = .txt s :: preF f from rfl] at hn ⊢
      rcases List.mem_cons.1 hn with (rfl | hn')
      · exact absurd hx (by simp [childrenF, preF])
      · exact List.mem_cons_of_mem _ (ih n hn' x hx)
  | hel i t c ch f ih1 ih2 =>
      intro n hn x hx
      rw [show preF (.cons (.el i t c ch) f) = .el i t c ch :: (preF ch ++ preF f)
        from rfl] at hn ⊢
      rcases List.mem_cons.1 hn with (rfl | hn')
      · have hx' : x ∈ preF ch := by simpa [childrenF] using hx
        exact List.mem_cons_of_mem _ (List.mem_append.2 (Or.inl hx'))
      · rcases List.mem_append.1 hn' with (h1 | h2)
        · exact List.mem_cons_of_mem _ (List.mem_append.2 (Or.inl (ih1 n h1 x hx)))
        · exact List.mem_cons_of_mem _ (List.mem_append.2 (Or.inr (ih2 n h2 x hx)))

theorem firstHeadF_mem : ∀ f n, firstHeadF f = some n → n ∈ preF f := by
  intro f
  induction f using forestInd with
  | hnil => intro n hn; exact absurd hn (by simp [firstHeadF])
  | htxt s f ih =>
      intro n hn
      rw [show firstHeadF (.cons (.txt s) f) = firstHeadF f from rfl] at hn
      rw [show preF (.cons (.txt s) f) = .txt s :: preF f from rfl]
      exact List.mem_cons_of_mem _ (ih n hn)
  | hel i t c ch f ih1 ih2 =>
      intro n hn
      rw [show preF (.cons (.el i t c ch) f) = .el i t c ch :: (preF ch ++ preF f) from rfl]
      by_cases hht : isHeadingTag t
      · rw [show firstHeadF (.cons (.el i t c ch) f) =
          (if isHeadingTag t then some (.el i t c ch) else
            (match firstHeadF ch with | some m => some m | none => firstHeadF f))
          from rfl, if_pos hht] at hn
        exact (Option.some.inj hn) ▸ List.mem_cons_self _ _
      · rw [show firstHeadF (.cons (.el i t c ch) f) =
          (if isHeadingTag t then some (.el i t c ch) else
            (match firstHeadF ch with | some m => some m | none => firstHeadF f))
          from rfl, if_neg hht] at hn
        cases hc : firstHeadF ch with
        | some m =>
            rw [hc] at hn
            have : m = n := Option.some.inj hn
            exact List.mem_cons_of_mem _ (List.mem_append.2 (Or.inl (this ▸ ih1 m hc)))
        | none =>
            rw [hc] at hn
            exact List.mem_cons_of_mem _ (List.mem_append.2 (Or.inr (ih2 n hn)))

theorem firstHeadF_heading : ∀ f n, firstHeadF f = some n → isHeadingNode n = true := by
  intro f
  induction f using forestInd with
  | hnil => intro n hn; exact absurd hn (by simp [firstHeadF])
  | htxt s f ih =>
      intro n hn
      exact ih n hn
  | hel i t c ch f ih1 ih2 =>
      intro n hn
      by_cases hht : isHeadingTag t
      · rw [show firstHeadF (.cons (.el i t c ch) f) =
          (if isHeadingTag t then some (.el i t c ch) else
            (match firstHeadF ch with | some m => some m | none => firstHeadF f))
          from rfl, if_pos hht] at hn
        rw [← Option.some.inj hn]
        simpa [isHeadingNode] using hht
      · rw [show firstHeadF (.cons (.el i t c ch) f) =
          (if isHeadingTag t then some (.el i t c ch) else
            (match firstHeadF ch with | some m => some m | none => firstHeadF f))
          from rfl, if_neg hht] at hn
        cases hc : firstHeadF ch with
        | some m =>
            rw [hc] at hn
            exact (Option.some.inj hn) ▸ ih1 m hc
        | none =>
            rw [hc] at hn
            exact ih2 n hn

theorem idsF_eq_filterMap : ∀ f, idsF f = (preF f).filterMap nidOf := by
  intro f
  induction f using forestInd with
  | hnil => rfl
  | htxt s f ih => simp [preF, idsF, nidOf, List.filterMap_cons, ih]
  | hel i t c ch f ih1 ih2 =>
      cases i <;>
        simp [preF, idsF, nidOf, List.filterMap_cons, List.filterMap_append, ih1, ih2]

theorem collect_mem (doc : Forest) (h : Nat) (hmem : h ∈ collectTargetsF doc) :
    ∃ m, m ∈ preF doc ∧ nidOf m = some h ∧ isHeadingNode m = true := by
  unfold collectTargetsF at hmem
  rcases List.mem_filterMap.1 hmem with ⟨n, hn, hbind⟩
  rcases Option.bind_eq_some.1 hbind with ⟨m, hfh, hnid⟩
  have hnp : n ∈ preF doc := (List.mem_filter.1 hn).1
  exact ⟨m, preF_sub doc n hnp m (firstHeadF_mem _ m hfh), hnid,
    firstHeadF_heading _ m hfh⟩

theorem collect_mem_ids (doc : Forest) (h : Nat) (hmem : h ∈ collectTargetsF doc) :
    h ∈ idsF doc := by
  rcases collect_mem doc h hmem with ⟨m, hm, hnid, _⟩
  rw [idsF_eq_filterMap]
  exact List.mem_filterMap.2 ⟨m, hm, hnid⟩

theorem idHeadB_of_all (h : Nat) : ∀ f,
    (∀ x ∈ preF f, nidOf x = some h → isHeadingNode x = true) → idHeadB h f = true := by
  intro f
  induction f using forestInd with
  | hnil => intro _; rfl
  | htxt s f ih =>
      intro hall
      rw [show idHeadB h (.cons (.txt s) f) = idHeadB h f from rfl]
      refine ih (fun x hx hid => hall x ?_ hid)
      rw [show preF (.cons (.txt s) f) = .txt s :: preF f from rfl]
      exact List.mem_cons_of_mem _ hx
  | hel i t c ch f ih1 ih2 =>
      intro hall
      rw [show idHeadB h (.cons (.el i t c ch) f) =
        ((if i = some h then isHeadingTag t else true) && idHeadB h ch && idHeadB h f)
        from rfl, Bool.and_eq_true, Bool.and_eq_true]
      refine ⟨⟨?_, ih1 (fun x hx hid => hall x ?_ hid)⟩, ih2 (fun x hx hid => hall x ?_ hid)⟩
      · by_cases hih : i = some h
        · rw [if_pos hih]
          have := hall (.el i t c ch) (by
            rw [show preF (.cons (.el i t c ch) f) = .el i t c ch :: (preF ch ++ preF f)
              from rfl]
            exact List.mem_cons_self _ _) (by simpa [nidOf] using hih)
          simpa [isHeadingNode] using this
        · rw [if_neg hih]
      · rw [show preF (.cons (.el i t c ch) f) = .el i t c ch :: (preF ch ++ preF f)
          from rfl]
        exact List.mem_cons_of_mem _ (List.mem_append.2 (Or.inl hx))
      · rw [show preF (.cons (.el i t c ch) f) = .el i t c ch :: (preF ch ++ preF f)
          from rfl]
        exact List.mem_cons_of_mem _ (List.mem_append.2 (Or.inr hx))

theorem collect_idHead (doc : Forest) (hnd : (idsF doc).Nodup) (h : Nat)
    (hmem : h ∈ collectTargetsF doc) : idHeadB h doc = true := by
  rcases collect_mem doc h hmem with ⟨m, hm, hnid, hhead⟩
  refine idHeadB_of_all h doc (fun x hx hxid => ?_)
  by_cases hxm : x = m
  · rw [hxm]
    exact hhead
  · exfalso
    rw [idsF_eq_filterMap] at hnd
    have hperm : List.Perm (preF doc) (m :: (preF doc).erase m) :=
      List.perm_cons_erase hm
    have hnd2 : ((m :: (preF doc).erase m).filterMap nidOf).Nodup :=
      ((hperm.filterMap nidOf).nodup_iff).1 hnd
    rw [List.filterMap_cons, hnid] at hnd2
    have hxin : h ∈ ((preF doc).erase m).filterMap nidOf :=
      List.mem_filterMap.2 ⟨x, (List.mem_erase_of_ne hxm).2 hx, hxid⟩
    exact (List.nodup_cons.1 hnd2).1 hxin

theorem allIds_tidy : ∀ f, allIdsF f = true → tidyF f = true := by
  intro f
  induction f using forestInd with
  | hnil => intro _; rfl
  | htxt s f ih => intro h; exact ih h
  | hel i t c ch f ih1 ih2 =>
      intro h
      rw [show allIdsF (.cons (.el i t c ch) f) = (i.isSome && allIdsF ch && allIdsF f)
        from rfl, Bool.and_eq_true, Bool.and_eq_true] at h
      cases i with
      | none => exact absurd h.1.1 (by simp)
      | some j =>
          rw [show tidyF (.cons (.el (some j) t c ch) f) = (tidyF ch && tidyF f) from rfl,
            Bool.and_eq_true]
          exact ⟨ih1 h.1.2, ih2 h.2⟩

theorem allIds_countAnn : ∀ f, allIdsF f = true → countAnnF f = 0 := by
  intro f
  induction f using forestInd with
  | hnil => intro _; rfl
  | htxt s f ih => intro h; exact ih h
  | hel i t c ch f ih1 ih2 =>
      intro h
      rw [show allIdsF (.cons (.el i t c ch) f) = (i.isSome && allIdsF ch && allIdsF f)
        from rfl, Bool.and_eq_true, Bool.and_eq_true] at h
      cases i with
      | none => exact absurd h.1.1 (by simp)
      | some j =>
          rw [show countAnnF (.cons (.el (some j) t c ch) f) =
            ((if isAnnB (.el (some j) t c ch) then 1 else 0) + countAnnF ch + countAnnF f)
            from rfl, isAnn_el_some, ih1 h.1.2, ih2 h.2]
          simp

theorem allIds_annPrev (S : List Nat) : ∀ f, allIdsF f = true →
    ∀ p, annPrevOkF S p f = true := by
  intro f
  induction f using forestInd with
  | hnil => intro _ p; rfl
  | htxt s f ih =>
      intro h p
      rw [annPrev_cons_txt]
      exact ih h _
  | hel i t c ch f ih1 ih2 =>
      intro h p
      rw [show allIdsF (.cons (.el i t c ch) f) = (i.isSome && allIdsF ch && allIdsF f)
        from rfl, Bool.and_eq_true, Bool.and_eq_true] at h
      cases i with
      | none => exact absurd h.1.1 (by simp)
      | some j =>
          rw [annPrev_cons_el, isAnn_el_some, Bool.and_eq_true, Bool.and_eq_true]
          exact ⟨⟨by simp, ih1 h.1.2 _⟩, ih2 h.2 _⟩

theorem allIds_el_some : ∀ f, allIdsF f = true →
    ∀ i t c ch, (NodeT.el i t c ch) ∈ preF f → i.isSome = true := by
  intro f
  induction f using forestInd with
  | hnil =>
      intro _ i t c ch hm
      exact absurd hm (by simp [preF])
  | htxt s f ih =>
      intro h i t c ch hm
      rw [show preF (.cons (.txt s) f) = .txt s :: preF f from rfl] at hm
      rcases List.mem_cons.1 hm with (he | hm')
      · exact absurd he (by simp)
      · exact ih h i t c ch hm'
  | hel i0 t0 c0 ch0 f ih1 ih2 =>
      intro h i t c ch hm
      rw [show allIdsF (.cons (.el i0 t0 c0 ch0) f) =
        (i0.isSome && allIdsF ch0 && allIdsF f) from rfl,
        Bool.and_eq_true, Bool.and_eq_true] at h
      rw [show preF (.cons (.el i0 t0 c0 ch0) f) = .el i0 t0 c0 ch0 :: (preF ch0 ++ preF f)
        from rfl] at hm
      rcases List.mem_cons.1 hm with (he | hm')
      · cases he
        exact h.1.1
      · rcases List.mem_append.1 hm' with (h1 | h2)
        · exact ih1 h.1.2 i t c ch h1
        · exact ih2 h.2 i t c ch h2

theorem filterMap_length_all {α β : Type} : ∀ (L : List α) (g : α → Option β),
    (∀ x ∈ L, (g x).isSome = true) → (L.filterMap g).length = L.length := by
  intro L
  induction L with
  | nil => intro g _; rfl
  | cons a L ih =>
      intro g hall
      cases hga : g a with
      | none =>
          have := hall a (List.mem_cons_self a L)
          rw [hga] at this
          exact absurd this (by simp)
      | some b =>
          rw [List.filterMap_cons, hga, List.length_cons,
            ih g (fun x hx => hall x (List.mem_cons_of_mem a hx))]
          rfl

/-! ## Claim C6 -/

/-- C6, counterexample: the nested document `cexDoc` satisfies all the
conditions of the claim (every element carries a distinct identity, it
holds N = 2 marked sections, each with a first heading descendant at
levels 2 through 6, and no pre-existing annotation), and `run()` does
insert exactly 2 fragments — but the two marked sections share the same
first heading, so the two fragments cannot both immediately follow it:
after the run there is an annotation fragment whose previous sibling is
another annotation fragment, not a heading.  The claim as stated is
therefore false at this input. -/
theorem informative_shared_heading_cex :
    allIdsF cexDoc = true ∧
    (idsF cexDoc).Nodup ∧
    ((preF cexDoc).filter isMarkedB).length = 2 ∧
    (∀ n ∈ (preF cexDoc).filter isMarkedB, (firstHeadF (childrenF n)).isSome = true) ∧
    countAnnF (informativeRun cexDoc) = 2 ∧
    annPrevOkF (collectTargetsF cexDoc) none (informativeRun cexDoc) = false := by
  refine ⟨rfl, by decide, rfl, by decide, rfl, rfl⟩

/-- C6, amended: on every well-formed document (each element carries a
distinct identity) in which no two marked sections share their first
heading descendant (e.g. no marked section nested in another marked
section), one invocation of `run()` inserts exactly one annotation
fragment per marked `section.informative` that has a heading descendant
at levels 2 through 6 — marked sections without such a heading are
skipped silently — and each target heading has an annotation fragment
as its immediate next sibling, while every annotation fragment in the
result immediately follows one of the target headings. -/
theorem informative_run_annotates (doc : Forest)
    (hids : allIdsF doc = true)
    (hnd : (idsF doc).Nodup)
    (htd : (collectTargetsF doc).Nodup) :
    countAnnF (informativeRun doc) = (collectTargetsF doc).length ∧
    (∀ h ∈ collectTargetsF doc, nsibF h (informativeRun doc) = some annotN) ∧
    annPrevOkF (collectTargetsF doc) none (informativeRun doc) = true ∧
    ((∀ n ∈ (preF doc).filter isMarkedB, (firstHeadF (childrenF n)).isSome = true) →
      (collectTargetsF doc).length = ((preF doc).filter isMarkedB).length) := by
  have htidy := allIds_tidy doc hids
  have hmems : ∀ h ∈ collectTargetsF doc, h ∈ idsF doc :=
    fun h hm => collect_mem_ids doc h hm
  refine ⟨?_, ?_, ?_, ?_⟩
  · rw [show informativeRun doc = applyAllF (collectTargetsF doc) doc from rfl,
      countAnnF_applyAll (collectTargetsF doc) doc htidy hnd hmems,
      allIds_countAnn doc hids, Nat.zero_add]
  · intro h hm
    exact nsibF_applyAll (collectTargetsF doc) doc htd hmems h hm
  · have hfold := annPrevOkF_applyAll (collectTargetsF doc) [] doc htidy
      (fun h hm => collect_idHead doc hnd h hm)
      (fun h _ => List.not_mem_nil h) htd (allIds_annPrev [] doc hids none)
    refine annPrevOkF_mono (List.reverseAux (collectTargetsF doc) []) (collectTargetsF doc)
      (fun x hx => ?_) (informativeRun doc) none hfold
    rw [List.reverseAux_eq, List.append_nil, List.mem_reverse] at hx
    exact hx
  · intro hall
    unfold collectTargetsF
    refine filterMap_length_all _ _ (fun n hn => ?_)
    rcases Option.isSome_iff_exists.1 (hall n hn) with ⟨m, hm⟩
    rw [hm]
    have hmm : m ∈ preF doc :=
      preF_sub doc n (List.mem_filter.1 hn).1 m (firstHeadF_mem _ m hm)
    have hhead := firstHeadF_heading _ m hm
    cases m with
    | txt s => exact absurd hhead (by simp [isHeadingNode])
    | el i t c ch =>
        have hi : i.isSome = true := allIds_el_some doc hids i t c ch hmm
        simpa [nidOf] using hi

/-- Witness for C6 at the example of the spec: a single informative
section with an h3 heading receives exactly one fragment, sitting
immediately after the heading. -/
theorem informative_run_annotates_witness :
    countAnnF (informativeRun witDoc) = 1 ∧
    nsibF 2 (informativeRun witDoc) = some annotN := by
  have hm := informative_run_annotates witDoc rfl (by decide) (by decide)
  exact ⟨hm.1.trans (by decide), hm.2.1 2 (by decide)⟩
